import Mathlib

/-!
Shallow embedding of the crit-bit (PATRICIA) trie from `src/lib.rs` of
rust-critbit.  Keys are fixed-width unsigned integers; we model a key of
width `w` as a natural number below `2 ^ w`, and every machine operation
carries the width `w` explicitly, truncating with `% 2 ^ w` where the
hardware would.
-/

set_option maxRecDepth 4000

/-- The node type of the trie, translated from the Rust enum
`CritBit<K,V> = Leaf(K, V) | Internal((Box<CritBit>, Box<CritBit>), K) | Empty`.
Keys (and the stored critical-bit index, which the source stores as a `K`)
are modelled as `Nat`. -/
inductive CritBit (V : Type) where
  | Leaf (k : Nat) (v : V)
  | Internal (l r : CritBit V) (crit : Nat)
  | Empty
deriving Repr

namespace CritBit

variable {V : Type}

/-- Model of Rust's `leading_zeros` intrinsic for a `w`-bit value: the
number of consecutive zero bits starting from the most significant of the
`w` bits.  Structured as recursion on the width so it reduces in the
kernel. -/
def leadingZeros (w x : Nat) : Nat :=
  match w with
  | 0 => 0
  | w' + 1 => if 2 ^ w' ≤ x then 0 else leadingZeros w' x + 1

/-- Translation of
`fn bit_at(value, pos) = ((*value << *pos).leading_zeros() == (*value & !*value))`.
The `w`-bit left shift truncates mod `2 ^ w`, and the bitwise complement of
a `w`-bit `value` is `(2 ^ w - 1) ^^^ value`. -/
def bit_at (w value pos : Nat) : Bool :=
  leadingZeros w ((value <<< pos) % 2 ^ w) == value &&& ((2 ^ w - 1) ^^^ value)

/-- Translation of `Container::len` for `CritBit`. -/
def len : CritBit V → Nat
  | .Empty => 0
  | .Leaf _ _ => 1
  | .Internal l r _ => len l + len r

/-- Translation of `Map::find` for `CritBit`: guarded match on the node,
descending left on a clear critical bit and right on a set one. -/
def find (w : Nat) : CritBit V → Nat → Option V
  | .Leaf k v, key => if k = key then some v else none
  | .Internal l r crit, key =>
      if bit_at w key crit then find w r key else find w l key
  | .Empty, _ => none

/-- Translation of `Map::contains_key`, which matches on `find`. -/
def contains_key (w : Nat) (t : CritBit V) (key : Nat) : Bool :=
  (find w t key).isSome

/-- Translation of `Mutable::clear`, which overwrites `self` with `Empty`. -/
def clear (_ : CritBit V) : CritBit V := .Empty

/-- The second match of `pop`: after the recursive call, an `Internal`
whose left (checked first) or right child box holds `Empty` is replaced by
the other child; otherwise the node is restored unchanged. -/
def collapse (l r : CritBit V) (crit : Nat) : CritBit V :=
  match l, r with
  | .Empty, kid => kid
  | kid, .Empty => kid
  | l, r => .Internal l r crit

/-- Translation of `MutableMap::pop`: the source moves the node out of
`self`, recurses into the child selected by `bit_at`, then either removes a
matching leaf, collapses an internal node with an emptied child, or
restores the node.  In-place mutation is modelled by returning the new
subtree alongside the removed value. -/
def pop (w : Nat) : CritBit V → Nat → Option V × CritBit V
  | .Empty, _ => (none, .Empty)
  | .Leaf k v, key =>
      if k = key then (some v, .Empty) else (none, .Leaf k v)
  | .Internal l r crit, key =>
      if bit_at w key crit then
        let p := pop w r key
        (p.1, collapse l p.2 crit)
      else
        let p := pop w l key
        (p.1, collapse p.2 r crit)

/-- Translation of `MutableMap::swap`: at a `Leaf` the source computes
`crit = (k ^ key).leading_zeros()` and `bit = bit_at(&key, &crit)` before
testing `k == key`, then either overwrites the leaf or splits it into an
`Internal` node; at an `Internal` node it recurses into the child selected
by `bit_at`; `Empty` becomes a fresh leaf. -/
def swap (w : Nat) : CritBit V → Nat → V → Option V × CritBit V
  | .Leaf k v, key, value =>
      let crit := leadingZeros w (k ^^^ key)
      let bit := bit_at w key crit
      if k = key then
        (some v, .Leaf key value)
      else if bit then
        (none, .Internal (.Leaf k v) (.Leaf key value) crit)
      else
        (none, .Internal (.Leaf key value) (.Leaf k v) crit)
  | .Internal l r crit, key, value =>
      if bit_at w key crit then
        let p := swap w r key value
        (p.1, .Internal l p.2 crit)
      else
        let p := swap w l key value
        (p.1, .Internal p.2 r crit)
  | .Empty, key, value => (none, .Leaf key value)

/-- The shift amounts (the `pos` argument of the left shift inside
`bit_at`) evaluated during one run of `swap`, in evaluation order: each
guard of the `Internal` arm evaluates `bit_at(&key, crit)` (the second
guard runs only when the first fails), and the `Leaf` arm evaluates
`bit_at(&key, &crit)` with `crit = (k ^ key).leading_zeros()`
unconditionally, before the `k == key` test. -/
def swapShifts (w : Nat) : CritBit V → Nat → List Nat
  | .Leaf k _, key => [leadingZeros w (k ^^^ key)]
  | .Internal l r crit, key =>
      if bit_at w key crit then
        crit :: crit :: swapShifts w r key
      else
        crit :: swapShifts w l key
  | .Empty, _ => []

/-- Keys of the leaves reachable from a node, left to right. -/
def leafKeys : CritBit V → List Nat
  | .Empty => []
  | .Leaf k _ => [k]
  | .Internal l r _ => leafKeys l ++ leafKeys r

/-- A node is not the `Empty` sentinel. -/
def notEmpty : CritBit V → Bool
  | .Empty => false
  | _ => true

/-- No `Internal` node anywhere in the tree has an `Empty` child:
"every Internal node has exactly two non-empty children". -/
def noEmptySub : CritBit V → Bool
  | .Empty => true
  | .Leaf _ _ => true
  | .Internal l r _ =>
      notEmpty l && notEmpty r && noEmptySub l && noEmptySub r

/-- The crit-bit ordering invariant: at every `Internal` node with
critical bit `c`, every leaf reachable through the left child has bit `c`
clear and every leaf reachable through the right child has bit `c` set. -/
def inv2 (w : Nat) : CritBit V → Bool
  | .Empty => true
  | .Leaf _ _ => true
  | .Internal l r c =>
      (leafKeys l).all (fun k => !bit_at w k c) &&
      (leafKeys r).all (fun k => bit_at w k c) &&
      inv2 w l && inv2 w r

/-- All leaf keys fit in `w` bits. -/
def keysBelow (w : Nat) (t : CritBit V) : Bool :=
  (leafKeys t).all (fun k => decide (k < 2 ^ w))

/-- All stored critical-bit indices are below the key width. -/
def critsBelow (w : Nat) : CritBit V → Bool
  | .Empty => true
  | .Leaf _ _ => true
  | .Internal l r c => decide (c < w) && critsBelow w l && critsBelow w r

/-- Some `Internal` node of the tree carries critical bit `c`. -/
def hasCrit (c : Nat) : CritBit V → Bool
  | .Empty => false
  | .Leaf _ _ => false
  | .Internal l r c' => c' == c || hasCrit c l || hasCrit c r

/-- No critical bit recurs strictly below the `Internal` node that carries
it: the tree never branches twice on the same bit along one path. -/
def critsDistinct : CritBit V → Bool
  | .Empty => true
  | .Leaf _ _ => true
  | .Internal l r c =>
      !hasCrit c l && !hasCrit c r && critsDistinct l && critsDistinct r

/-- Every critical bit in the tree is strictly greater than `c`. -/
def allCritsGT (c : Nat) : CritBit V → Bool
  | .Empty => true
  | .Leaf _ _ => true
  | .Internal l r c' => decide (c < c') && allCritsGT c l && allCritsGT c r

/-- Every `Internal` node branches on a bit position strictly greater than
the critical bit of every `Internal` ancestor. -/
def critOrdered : CritBit V → Bool
  | .Empty => true
  | .Leaf _ _ => true
  | .Internal l r c =>
      allCritsGT c l && allCritsGT c r && critOrdered l && critOrdered r

/-- Height of the tree: `Internal` nodes on a longest root-to-leaf path. -/
def height : CritBit V → Nat
  | .Empty => 0
  | .Leaf _ _ => 0
  | .Internal l r _ => max (height l) (height r) + 1

/-- Trees reachable from the empty map by the mutating operations of the
source (`swap`, `pop`, `clear`) applied with `w`-bit keys. -/
inductive Reachable (w : Nat) : CritBit V → Prop where
  | empty : Reachable w .Empty
  | swap (t : CritBit V) (key : Nat) (value : V) :
      Reachable w t → key < 2 ^ w → Reachable w (CritBit.swap w t key value).2
  | pop (t : CritBit V) (key : Nat) :
      Reachable w t → key < 2 ^ w → Reachable w (CritBit.pop w t key).2
  | clear (t : CritBit V) : Reachable w t → Reachable w (CritBit.clear t)

/-- Folding `swap` over a list of key/value pairs, starting from the
empty map. -/
def insertAll (w : Nat) (l : List (Nat × V)) : CritBit V :=
  l.foldl (fun t kv => (swap w t kv.1 kv.2).2) .Empty

/-- Modelled from the spec's words for C7: "the bit at position `pos`,
counted with position 0 as the most-significant bit" of a `w`-bit value,
i.e. bit `w - 1 - pos` in least-significant-first order. -/
def msbIndexedBit (w value pos : Nat) : Bool :=
  value.testBit (w - 1 - pos)

theorem leadingZeros_zero (w : Nat) : leadingZeros w 0 = w := by
  induction w with
  | zero => rfl
  | succ w ih =>
    have h : ¬ 2 ^ w ≤ 0 := by have := Nat.two_pow_pos w; omega
    simp [leadingZeros, h, ih]

theorem leadingZeros_lt {w x : Nat} (hx : x ≠ 0) (hw : x < 2 ^ w) :
    leadingZeros w x < w := by
  induction w with
  | zero => simp at hw; omega
  | succ w ih =>
    by_cases h : 2 ^ w ≤ x
    · simp [leadingZeros, h]
    · have hlt : x < 2 ^ w := by omega
      have := ih hlt
      simp [leadingZeros, h]
      omega

theorem leadingZeros_bounds {w x : Nat} (hx : x ≠ 0) (hw : x < 2 ^ w) :
    2 ^ (w - 1 - leadingZeros w x) ≤ x ∧ x < 2 ^ (w - leadingZeros w x) := by
  induction w with
  | zero => simp at hw; omega
  | succ w ih =>
    by_cases h : 2 ^ w ≤ x
    · have e0 : leadingZeros (w + 1) x = 0 := by simp [leadingZeros, h]
      rw [e0]
      constructor
      · simpa using h
      · simpa using hw
    · have hlt : x < 2 ^ w := by omega
      obtain ⟨ih1, ih2⟩ := ih hlt
      have e1 : leadingZeros (w + 1) x = leadingZeros w x + 1 := by
        simp [leadingZeros, h]
      rw [e1]
      have e2 : w + 1 - 1 - (leadingZeros w x + 1) = w - 1 - leadingZeros w x := by
        omega
      have e3 : w + 1 - (leadingZeros w x + 1) = w - leadingZeros w x := by
        omega
      rw [e2, e3]
      exact ⟨ih1, ih2⟩

theorem testBit_true_of_bounds {x i : Nat} (h1 : 2 ^ i ≤ x)
    (h2 : x < 2 ^ (i + 1)) : x.testBit i = true := by
  have hpos := Nat.two_pow_pos i
  have hd1 : 1 ≤ x / 2 ^ i := (Nat.one_le_div_iff hpos).2 h1
  have hd2 : x / 2 ^ i < 2 := by
    rw [Nat.div_lt_iff_lt_mul hpos]
    have : 2 ^ (i + 1) = 2 * 2 ^ i := by ring
    omega
  have hx1 : x / 2 ^ i = 1 := by omega
  rw [Nat.testBit_to_div_mod, hx1]
  rfl

theorem testBit_msb_iff {w x : Nat} (hx : x < 2 ^ (w + 1)) :
    x.testBit w = true ↔ 2 ^ w ≤ x := by
  have hpos := Nat.two_pow_pos w
  have hd2 : x / 2 ^ w < 2 := by
    rw [Nat.div_lt_iff_lt_mul hpos]
    have : 2 ^ (w + 1) = 2 * 2 ^ w := by ring
    omega
  rw [Nat.testBit_to_div_mod]
  have hmod : x / 2 ^ w % 2 = x / 2 ^ w := Nat.mod_eq_of_lt hd2
  rw [hmod]
  constructor
  · intro h
    have h1 : 1 ≤ x / 2 ^ w := by
      have := of_decide_eq_true h
      omega
    exact (Nat.one_le_div_iff hpos).1 h1
  · intro h
    have h1 := (Nat.one_le_div_iff hpos).2 h
    have hx1 : x / 2 ^ w = 1 := by omega
    rw [hx1]
    rfl

theorem land_compl_self {w v : Nat} (hv : v < 2 ^ w) :
    v &&& ((2 ^ w - 1) ^^^ v) = 0 := by
  apply Nat.eq_of_testBit_eq
  intro i
  rw [Nat.testBit_land, Nat.testBit_xor, Nat.testBit_two_pow_sub_one,
    Nat.zero_testBit]
  by_cases hvi : v.testBit i = true
  · have hiw : i < w := by
      by_contra hge
      have hle : v < 2 ^ i :=
        lt_of_lt_of_le hv (Nat.pow_le_pow_right (by omega) (by omega))
      rw [Nat.testBit_lt_two_pow hle] at hvi
      exact absurd hvi (by simp)
    simp [hvi, hiw]
  · simp [Bool.not_eq_true] at hvi
    simp [hvi]

theorem bit_at_eq_testBit {w v p : Nat} (hv : v < 2 ^ w) (hp : p < w) :
    bit_at w v p = v.testBit (w - 1 - p) := by
  obtain ⟨w', rfl⟩ : ∃ w', w = w' + 1 := ⟨w - 1, by omega⟩
  have hp' : p ≤ w' := by omega
  unfold bit_at
  rw [land_compl_self hv]
  have hmod : (v <<< p) % 2 ^ (w' + 1) < 2 ^ (w' + 1) :=
    Nat.mod_lt _ (Nat.two_pow_pos _)
  have h2 : ((v <<< p) % 2 ^ (w' + 1)).testBit w' = v.testBit (w' - p) := by
    rw [Nat.testBit_mod_two_pow, Nat.testBit_shiftLeft]
    simp [hp', Nat.lt_succ_self]
  have e : w' + 1 - 1 - p = w' - p := by omega
  rw [e, ← h2]
  rw [Bool.eq_iff_iff]
  rw [beq_iff_eq, testBit_msb_iff hmod]
  constructor
  · intro h0
    by_contra hle
    have : leadingZeros (w' + 1) ((v <<< p) % 2 ^ (w' + 1)) ≠ 0 := by
      simp only [leadingZeros]
      rw [if_neg hle]
      omega
    exact this h0
  · intro hle
    simp only [leadingZeros]
    rw [if_pos hle]

theorem crit_lt {w k key : Nat} (hk : k < 2 ^ w) (hkey : key < 2 ^ w)
    (hne : k ≠ key) : leadingZeros w (k ^^^ key) < w :=
  leadingZeros_lt (fun h => hne (Nat.xor_eq_zero.1 h))
    (Nat.xor_lt_two_pow hk hkey)

theorem crit_testBit_true {w k key : Nat} (hk : k < 2 ^ w) (hkey : key < 2 ^ w)
    (hne : k ≠ key) :
    (k ^^^ key).testBit (w - 1 - leadingZeros w (k ^^^ key)) = true := by
  have hd0 : k ^^^ key ≠ 0 := fun h => hne (Nat.xor_eq_zero.1 h)
  have hdw : k ^^^ key < 2 ^ w := Nat.xor_lt_two_pow hk hkey
  obtain ⟨h1, h2⟩ := leadingZeros_bounds hd0 hdw
  have hc := leadingZeros_lt hd0 hdw
  have e : w - leadingZeros w (k ^^^ key) =
      (w - 1 - leadingZeros w (k ^^^ key)) + 1 := by omega
  exact testBit_true_of_bounds h1 (by rw [← e]; exact h2)

theorem crit_testBit_false {w k key : Nat} (hk : k < 2 ^ w) (hkey : key < 2 ^ w)
    (hne : k ≠ key) {j : Nat} (hj : w - 1 - leadingZeros w (k ^^^ key) < j) :
    (k ^^^ key).testBit j = false := by
  have hd0 : k ^^^ key ≠ 0 := fun h => hne (Nat.xor_eq_zero.1 h)
  have hdw : k ^^^ key < 2 ^ w := Nat.xor_lt_two_pow hk hkey
  obtain ⟨h1, h2⟩ := leadingZeros_bounds hd0 hdw
  have hc := leadingZeros_lt hd0 hdw
  apply Nat.testBit_lt_two_pow
  calc k ^^^ key < 2 ^ (w - leadingZeros w (k ^^^ key)) := h2
    _ ≤ 2 ^ j := Nat.pow_le_pow_right (by omega) (by omega)

theorem bit_at_crit_opposite {w k key : Nat} (hk : k < 2 ^ w)
    (hkey : key < 2 ^ w) (hne : k ≠ key) :
    bit_at w k (leadingZeros w (k ^^^ key)) =
      !bit_at w key (leadingZeros w (k ^^^ key)) := by
  have hc := crit_lt hk hkey hne
  rw [bit_at_eq_testBit hk hc, bit_at_eq_testBit hkey hc]
  have h := crit_testBit_true hk hkey hne
  rw [Nat.testBit_xor] at h
  cases hkb : key.testBit (w - 1 - leadingZeros w (k ^^^ key)) <;>
    cases hkk : k.testBit (w - 1 - leadingZeros w (k ^^^ key)) <;> simp_all

theorem bit_at_crit_lt_iff {w k key : Nat} (hk : k < 2 ^ w)
    (hkey : key < 2 ^ w) (hne : k ≠ key) :
    bit_at w key (leadingZeros w (k ^^^ key)) = decide (k < key) := by
  have hc := crit_lt hk hkey hne
  have ht := crit_testBit_true hk hkey hne
  rw [Nat.testBit_xor] at ht
  have hagree : ∀ j, w - 1 - leadingZeros w (k ^^^ key) < j →
      k.testBit j = key.testBit j := by
    intro j hj
    have hf := crit_testBit_false hk hkey hne hj
    rw [Nat.testBit_xor] at hf
    cases h1 : k.testBit j <;> cases h2 : key.testBit j <;> simp_all
  rw [bit_at_eq_testBit hkey hc]
  cases hkb : key.testBit (w - 1 - leadingZeros w (k ^^^ key))
  · have hkk : k.testBit (w - 1 - leadingZeros w (k ^^^ key)) = true := by
      cases h : k.testBit (w - 1 - leadingZeros w (k ^^^ key)) <;> simp_all
    have hlt : key < k :=
      Nat.lt_of_testBit _ hkb hkk (fun j hj => (hagree j hj).symm)
    have hnlt : ¬ k < key := by omega
    simp [hnlt]
  · have hkk : k.testBit (w - 1 - leadingZeros w (k ^^^ key)) = false := by
      cases h : k.testBit (w - 1 - leadingZeros w (k ^^^ key)) <;> simp_all
    have hlt : k < key := Nat.lt_of_testBit _ hkk hkb hagree
    simp [hlt]

theorem swap_fst (w : Nat) (t : CritBit V) (key : Nat) (value : V) :
    (swap w t key value).1 = find w t key := by
  induction t with
  | Empty => simp [swap, find]
  | Leaf k v =>
    by_cases h : k = key
    · simp [swap, find, h]
    · by_cases hb : bit_at w key (leadingZeros w (k ^^^ key)) <;>
        simp [swap, find, h, hb]
  | Internal l r c ihl ihr =>
    by_cases hb : bit_at w key c <;> simp [swap, find, hb, ihl, ihr]

theorem swap_find_self (w : Nat) (t : CritBit V) (key : Nat) (value : V) :
    find w (swap w t key value).2 key = some value := by
  induction t with
  | Empty => simp [swap, find]
  | Leaf k v =>
    by_cases h : k = key
    · simp [swap, find, h]
    · by_cases hb : bit_at w key (leadingZeros w (k ^^^ key)) <;>
        simp [swap, find, h, hb]
  | Internal l r c ihl ihr =>
    by_cases hb : bit_at w key c <;> simp [swap, find, hb, ihl, ihr]

theorem swap_len (w : Nat) (t : CritBit V) (key : Nat) (value : V) :
    len (swap w t key value).2 =
      len t + (if (find w t key).isSome then 0 else 1) := by
  induction t with
  | Empty => simp [swap, find, len]
  | Leaf k v =>
    by_cases h : k = key
    · simp [swap, find, len, h]
    · by_cases hb : bit_at w key (leadingZeros w (k ^^^ key)) <;>
        simp [swap, find, len, h, hb]
  | Internal l r c ihl ihr =>
    by_cases hb : bit_at w key c
    · cases hf : find w r key <;>
        simp [swap, find, len, hb, ihr, hf] <;> omega
    · cases hf : find w l key <;>
        simp [swap, find, len, hb, ihl, hf] <;> omega

theorem swap_leafKeys {w : Nat} {t : CritBit V} {key : Nat} {value : V} :
    ∀ x ∈ leafKeys (swap w t key value).2, x = key ∨ x ∈ leafKeys t := by
  induction t with
  | Empty => simp [swap, leafKeys]
  | Leaf k v =>
    by_cases h : k = key
    · simp [swap, leafKeys, h]
    · by_cases hb : bit_at w key (leadingZeros w (k ^^^ key)) <;>
        simp [swap, leafKeys, h, hb]
  | Internal l r c ihl ihr =>
    intro x hx
    by_cases hb : bit_at w key c
    · simp [swap, leafKeys, hb] at hx
      rcases hx with hx | hx
      · exact Or.inr (by simp [leafKeys, hx])
      · rcases ihr x hx with h | h
        · exact Or.inl h
        · exact Or.inr (by simp [leafKeys, h])
    · simp [swap, leafKeys, hb] at hx
      rcases hx with hx | hx
      · rcases ihl x hx with h | h
        · exact Or.inl h
        · exact Or.inr (by simp [leafKeys, h])
      · exact Or.inr (by simp [leafKeys, hx])

theorem swap_snd_notEmpty (w : Nat) (t : CritBit V) (key : Nat) (value : V) :
    notEmpty (swap w t key value).2 = true := by
  cases t with
  | Empty => simp [swap, notEmpty]
  | Leaf k v =>
    by_cases h : k = key
    · simp [swap, notEmpty, h]
    · by_cases hb : bit_at w key (leadingZeros w (k ^^^ key)) <;>
        simp [swap, notEmpty, h, hb]
  | Internal l r c =>
    by_cases hb : bit_at w key c <;> simp [swap, notEmpty, hb]

theorem swap_noEmptySub {w : Nat} {t : CritBit V} {key : Nat} {value : V}
    (h : noEmptySub t = true) : noEmptySub (swap w t key value).2 = true := by
  induction t with
  | Empty => simp [swap, noEmptySub, notEmpty]
  | Leaf k v =>
    by_cases hk : k = key
    · simp [swap, noEmptySub, hk]
    · by_cases hb : bit_at w key (leadingZeros w (k ^^^ key)) <;>
        simp [swap, noEmptySub, notEmpty, hk, hb]
  | Internal l r c ihl ihr =>
    simp [noEmptySub] at h
    obtain ⟨⟨⟨hl, hr⟩, hsl⟩, hsr⟩ := h
    by_cases hb : bit_at w key c
    · simp [swap, noEmptySub, hb, hl, hsl, ihr hsr, swap_snd_notEmpty]
    · simp [swap, noEmptySub, hb, hr, hsr, ihl hsl, swap_snd_notEmpty]

theorem keysBelow_internal {w : Nat} {l r : CritBit V} {c : Nat}
    (h : keysBelow w (.Internal l r c) = true) :
    keysBelow w l = true ∧ keysBelow w r = true := by
  simp [keysBelow, leafKeys, List.all_append] at h ⊢
  exact h

theorem swap_keysBelow {w : Nat} {t : CritBit V} {key : Nat} {value : V}
    (h : keysBelow w t = true) (hkey : key < 2 ^ w) :
    keysBelow w (swap w t key value).2 = true := by
  simp [keysBelow, List.all_eq_true] at h ⊢
  intro x hx
  rcases swap_leafKeys x hx with rfl | hm
  · exact hkey
  · exact h x hm

theorem swap_find_other {w : Nat} {t : CritBit V} {key k' : Nat} {value : V}
    (hkb : keysBelow w t = true) (hkey : key < 2 ^ w) (hne : k' ≠ key) :
    find w (swap w t key value).2 k' = find w t k' := by
  induction t with
  | Empty => simp [swap, find, Ne.symm hne]
  | Leaf k v =>
    have hk : k < 2 ^ w := by simpa [keysBelow, leafKeys] using hkb
    by_cases hkk : k = key
    · subst hkk
      simp [swap, find, Ne.symm hne]
    · have hbo := bit_at_crit_opposite hk hkey hkk
      by_cases hb : bit_at w key (leadingZeros w (k ^^^ key))
      · by_cases hbk : bit_at w k' (leadingZeros w (k ^^^ key))
        · have hkne : k ≠ k' := by
            intro he
            rw [← he, hbo, hb] at hbk
            simp at hbk
          simp [swap, find, hkk, hb, hbk, Ne.symm hne, hkne]
        · simp [swap, find, hkk, hb, hbk]
      · by_cases hbk : bit_at w k' (leadingZeros w (k ^^^ key))
        · simp [swap, find, hkk, hb, hbk]
        · have hb' : bit_at w key (leadingZeros w (k ^^^ key)) = false := by
            simpa using hb
          have hkne : k ≠ k' := by
            intro he
            apply hbk
            rw [← he, hbo, hb']
            rfl
          simp [swap, find, hkk, hb, hbk, Ne.symm hne, hkne]
  | Internal l r c ihl ihr =>
    obtain ⟨hkbl, hkbr⟩ := keysBelow_internal hkb
    by_cases hbkey : bit_at w key c <;> by_cases hbk : bit_at w k' c <;>
      simp [swap, find, hbkey, hbk, ihl hkbl, ihr hkbr]

theorem swap_inv2 {w : Nat} {t : CritBit V} {key : Nat} {value : V}
    (hkb : keysBelow w t = true) (hkey : key < 2 ^ w) (hi : inv2 w t = true) :
    inv2 w (swap w t key value).2 = true := by
  induction t with
  | Empty => simp [swap, inv2]
  | Leaf k v =>
    have hk : k < 2 ^ w := by simpa [keysBelow, leafKeys] using hkb
    by_cases hkk : k = key
    · simp [swap, inv2, hkk]
    · have hbo := bit_at_crit_opposite hk hkey hkk
      by_cases hb : bit_at w key (leadingZeros w (k ^^^ key)) <;>
        simp [swap, inv2, leafKeys, hkk, hb, hbo]
  | Internal l r c ihl ihr =>
    obtain ⟨hkbl, hkbr⟩ := keysBelow_internal hkb
    rw [inv2, Bool.and_eq_true, Bool.and_eq_true, Bool.and_eq_true] at hi
    obtain ⟨⟨⟨hal, har⟩, hil⟩, hir⟩ := hi
    by_cases hb : bit_at w key c
    · have har' :
          (leafKeys (swap w r key value).2).all (fun x => bit_at w x c) = true := by
        rw [List.all_eq_true] at har ⊢
        intro x hx
        rcases swap_leafKeys x hx with rfl | hm
        · exact hb
        · exact har x hm
      have hs : (swap w (CritBit.Internal l r c) key value).2 =
          CritBit.Internal l (swap w r key value).2 c := by
        simp [swap, hb]
      rw [hs, inv2, Bool.and_eq_true, Bool.and_eq_true, Bool.and_eq_true]
      exact ⟨⟨⟨hal, har'⟩, hil⟩, ihr hkbr hir⟩
    · have hbf : bit_at w key c = false := by simpa using hb
      have hal' :
          (leafKeys (swap w l key value).2).all (fun x => !bit_at w x c) = true := by
        rw [List.all_eq_true] at hal ⊢
        intro x hx
        rcases swap_leafKeys x hx with rfl | hm
        · simp [hbf]
        · exact hal x hm
      have hs : (swap w (CritBit.Internal l r c) key value).2 =
          CritBit.Internal (swap w l key value).2 r c := by
        simp [swap, hb]
      rw [hs, inv2, Bool.and_eq_true, Bool.and_eq_true, Bool.and_eq_true]
      exact ⟨⟨⟨hal', har⟩, ihl hkbl hil⟩, hir⟩

theorem swap_critsBelow {w : Nat} {t : CritBit V} {key : Nat} {value : V}
    (hkb : keysBelow w t = true) (hkey : key < 2 ^ w)
    (hc : critsBelow w t = true) :
    critsBelow w (swap w t key value).2 = true := by
  induction t with
  | Empty => simp [swap, critsBelow]
  | Leaf k v =>
    have hk : k < 2 ^ w := by simpa [keysBelow, leafKeys] using hkb
    by_cases hkk : k = key
    · simp [swap, critsBelow, hkk]
    · have hcw := crit_lt hk hkey hkk
      by_cases hb : bit_at w key (leadingZeros w (k ^^^ key)) <;>
        simp [swap, critsBelow, hkk, hb, hcw]
  | Internal l r c ihl ihr =>
    obtain ⟨hkbl, hkbr⟩ := keysBelow_internal hkb
    simp [critsBelow] at hc
    obtain ⟨⟨hcw, hcl⟩, hcr⟩ := hc
    by_cases hb : bit_at w key c <;>
      simp [swap, critsBelow, hb, hcw, hcl, hcr, ihl hkbl hcl, ihr hkbr hcr]

theorem collapse_empty_left (r : CritBit V) (c : Nat) :
    collapse .Empty r c = r := by
  cases r <;> rfl

theorem collapse_empty_right (l : CritBit V) (c : Nat) :
    collapse l .Empty c = l := by
  cases l <;> rfl

theorem collapse_of_notEmpty {l r : CritBit V} (c : Nat)
    (hl : notEmpty l = true) (hr : notEmpty r = true) :
    collapse l r c = .Internal l r c := by
  cases l <;> cases r <;> simp_all [notEmpty, collapse]

theorem collapse_len (l r : CritBit V) (c : Nat) :
    len (collapse l r c) = len l + len r := by
  cases l <;> cases r <;> simp [collapse, len]

theorem collapse_leafKeys (l r : CritBit V) (c : Nat) :
    leafKeys (collapse l r c) = leafKeys l ++ leafKeys r := by
  cases l <;> cases r <;> simp [collapse, leafKeys]

theorem collapse_critsBelow {w : Nat} {l r : CritBit V} {c : Nat}
    (hl : critsBelow w l = true) (hr : critsBelow w r = true) (hc : c < w) :
    critsBelow w (collapse l r c) = true := by
  cases l <;> cases r <;> simp_all [collapse, critsBelow]

theorem noEmptySub_internal {l r : CritBit V} {c : Nat}
    (h : noEmptySub (.Internal l r c) = true) :
    notEmpty l = true ∧ notEmpty r = true ∧
      noEmptySub l = true ∧ noEmptySub r = true := by
  rw [noEmptySub, Bool.and_eq_true, Bool.and_eq_true, Bool.and_eq_true] at h
  exact ⟨h.1.1.1, h.1.1.2, h.1.2, h.2⟩

theorem inv2_internal {w : Nat} {l r : CritBit V} {c : Nat}
    (h : inv2 w (.Internal l r c) = true) :
    (∀ x ∈ leafKeys l, bit_at w x c = false) ∧
      (∀ x ∈ leafKeys r, bit_at w x c = true) ∧
      inv2 w l = true ∧ inv2 w r = true := by
  rw [inv2, Bool.and_eq_true, Bool.and_eq_true, Bool.and_eq_true] at h
  obtain ⟨⟨⟨hal, har⟩, hil⟩, hir⟩ := h
  rw [List.all_eq_true] at hal har
  refine ⟨fun x hx => ?_, fun x hx => har x hx, hil, hir⟩
  simpa using hal x hx

theorem find_some_mem {w : Nat} {t : CritBit V} {key : Nat} {v : V}
    (h : find w t key = some v) : key ∈ leafKeys t := by
  induction t with
  | Empty => simp [find] at h
  | Leaf k v' =>
    by_cases hk : k = key
    · simp [leafKeys, hk]
    · simp [find, hk] at h
  | Internal l r c ihl ihr =>
    by_cases hb : bit_at w key c
    · simp [find, hb] at h
      simp [leafKeys]
      exact Or.inr (ihr h)
    · simp [find, hb] at h
      simp [leafKeys]
      exact Or.inl (ihl h)

theorem find_none_of_bits {w c : Nat} {t : CritBit V} {key : Nat} {b : Bool}
    (hall : ∀ x ∈ leafKeys t, bit_at w x c = b)
    (hkey : bit_at w key c = !b) : find w t key = none := by
  cases hf : find w t key with
  | none => rfl
  | some v =>
    have hm := hall key (find_some_mem hf)
    rw [hm] at hkey
    cases b <;> simp at hkey

theorem pop_fst (w : Nat) (t : CritBit V) (key : Nat) :
    (pop w t key).1 = find w t key := by
  induction t with
  | Empty => simp [pop, find]
  | Leaf k v => by_cases h : k = key <;> simp [pop, find, h]
  | Internal l r c ihl ihr =>
    by_cases hb : bit_at w key c <;> simp [pop, find, hb, ihl, ihr]

theorem pop_none_id {w : Nat} {t : CritBit V} {key : Nat}
    (hs : noEmptySub t = true) (hf : find w t key = none) :
    pop w t key = (none, t) := by
  induction t with
  | Empty => simp [pop]
  | Leaf k v =>
    by_cases h : k = key
    · simp [find, h] at hf
    · simp [pop, h]
  | Internal l r c ihl ihr =>
    obtain ⟨hl, hr, hsl, hsr⟩ := noEmptySub_internal hs
    by_cases hb : bit_at w key c
    · have hfr : find w r key = none := by simpa [find, hb] using hf
      simp [pop, hb, ihr hsr hfr, collapse_of_notEmpty c hl hr]
    · have hfl : find w l key = none := by simpa [find, hb] using hf
      simp [pop, hb, ihl hsl hfl, collapse_of_notEmpty c hl hr]

theorem pop_snd_internal_right {w : Nat} {l r : CritBit V} {c key : Nat}
    (hb : bit_at w key c = true) :
    (pop w (CritBit.Internal l r c) key).2 = collapse l (pop w r key).2 c := by
  simp [pop, hb]

theorem pop_snd_internal_left {w : Nat} {l r : CritBit V} {c key : Nat}
    (hb : bit_at w key c = false) :
    (pop w (CritBit.Internal l r c) key).2 = collapse (pop w l key).2 r c := by
  simp [pop, hb]

theorem pop_leafKeys {w : Nat} {t : CritBit V} {key : Nat} :
    ∀ x ∈ leafKeys (pop w t key).2, x ∈ leafKeys t := by
  induction t with
  | Empty => simp [pop]
  | Leaf k v =>
    by_cases h : k = key <;> simp [pop, h, leafKeys]
  | Internal l r c ihl ihr =>
    intro x hx
    simp only [leafKeys, List.mem_append]
    by_cases hb : bit_at w key c
    · rw [pop_snd_internal_right hb, collapse_leafKeys, List.mem_append] at hx
      rcases hx with h | h
      · exact Or.inl h
      · exact Or.inr (ihr x h)
    · rw [pop_snd_internal_left (by simpa using hb), collapse_leafKeys,
        List.mem_append] at hx
      rcases hx with h | h
      · exact Or.inl (ihl x h)
      · exact Or.inr h

theorem pop_len_some {w : Nat} {t : CritBit V} {key : Nat} {v : V}
    (hf : find w t key = some v) : len (pop w t key).2 + 1 = len t := by
  induction t with
  | Empty => simp [find] at hf
  | Leaf k v' =>
    by_cases h : k = key
    · simp [pop, h, len]
    · simp [find, h] at hf
  | Internal l r c ihl ihr =>
    by_cases hb : bit_at w key c
    · have hfr : find w r key = some v := by simpa [find, hb] using hf
      have ih := ihr hfr
      rw [pop_snd_internal_right hb, collapse_len]
      simp only [len]
      omega
    · have hfl : find w l key = some v := by simpa [find, hb] using hf
      have ih := ihl hfl
      rw [pop_snd_internal_left (by simpa using hb), collapse_len]
      simp only [len]
      omega

theorem pop_snd_find {w : Nat} {t : CritBit V} {key : Nat}
    (hi : inv2 w t = true) (hs : noEmptySub t = true) (k' : Nat) :
    find w (pop w t key).2 k' = if k' = key then none else find w t k' := by
  induction t with
  | Empty => simp [pop, find]
  | Leaf k v =>
    by_cases h : k = key
    · subst h
      by_cases h' : k' = k
      · simp [pop, find, h']
      · simp [pop, find, h', Ne.symm h']
    · simp only [pop, if_neg h]
      by_cases h' : k' = key
      · subst h'
        simp [find, h, fun he => h (he : k = k')]
      · simp [h']
  | Internal l r c ihl ihr =>
    obtain ⟨hal, har, hil, hir⟩ := inv2_internal hi
    obtain ⟨hl, hr, hsl, hsr⟩ := noEmptySub_internal hs
    by_cases hb : bit_at w key c
    · have ih := ihr hir hsr
      rw [pop_snd_internal_right hb]
      by_cases hne : notEmpty (pop w r key).2 = true
      · rw [collapse_of_notEmpty c hl hne]
        by_cases hbk : bit_at w k' c
        · simp only [find, hbk, if_pos]
          rw [ih]
        · have hkne : k' ≠ key := by
            intro he
            rw [he, hb] at hbk
            exact hbk rfl
          simp [find, hbk, hkne]
      · have hp2 : (pop w r key).2 = .Empty := by
          cases hcase : (pop w r key).2 <;> simp_all [notEmpty]
        rw [hp2, collapse_empty_right]
        rw [hp2] at ih
        by_cases h' : k' = key
        · subst h'
          simp only [if_pos rfl]
          exact find_none_of_bits hal (by simp [hb])
        · simp only [if_neg h']
          have hfr : find w r k' = none := by
            have h2 := ih
            simp [find, h'] at h2
            exact h2.symm
          by_cases hbk : bit_at w k' c
          · have hfl2 : find w l k' = none :=
              find_none_of_bits hal (by simpa using hbk)
            simp [find, hbk, hfl2, hfr]
          · simp [find, hbk]
    · have hbf : bit_at w key c = false := by simpa using hb
      have ih := ihl hil hsl
      rw [pop_snd_internal_left hbf]
      by_cases hne : notEmpty (pop w l key).2 = true
      · rw [collapse_of_notEmpty c hne hr]
        by_cases hbk : bit_at w k' c
        · have hkne : k' ≠ key := by
            intro he
            rw [he, hbf] at hbk
            exact Bool.false_ne_true hbk
          simp [find, hbk, hkne]
        · simp only [find]
          rw [if_neg hbk, ih]
          by_cases h' : k' = key
          · simp [h']
          · simp [h', hbk]
      · have hp2 : (pop w l key).2 = .Empty := by
          cases hcase : (pop w l key).2 <;> simp_all [notEmpty]
        rw [hp2, collapse_empty_left]
        rw [hp2] at ih
        by_cases h' : k' = key
        · subst h'
          simp only [if_pos rfl]
          exact find_none_of_bits har (by simp [hbf])
        · simp only [if_neg h']
          have hfl : find w l k' = none := by
            have h2 := ih
            simp [find, h'] at h2
            exact h2.symm
          by_cases hbk : bit_at w k' c
          · simp [find, hbk]
          · have hfr2 : find w r k' = none :=
              find_none_of_bits har (by simpa using hbk)
            simp [find, hbk, hfr2, hfl]

theorem pop_noEmptySub {w : Nat} {t : CritBit V} {key : Nat}
    (hs : noEmptySub t = true) : noEmptySub (pop w t key).2 = true := by
  induction t with
  | Empty => simp [pop, noEmptySub]
  | Leaf k v => by_cases h : k = key <;> simp [pop, h, noEmptySub]
  | Internal l r c ihl ihr =>
    obtain ⟨hl, hr, hsl, hsr⟩ := noEmptySub_internal hs
    by_cases hb : bit_at w key c
    · rw [pop_snd_internal_right hb]
      by_cases hne : notEmpty (pop w r key).2 = true
      · rw [collapse_of_notEmpty c hl hne, noEmptySub, Bool.and_eq_true,
          Bool.and_eq_true, Bool.and_eq_true]
        exact ⟨⟨⟨hl, hne⟩, hsl⟩, ihr hsr⟩
      · have hp2 : (pop w r key).2 = .Empty := by
          cases hcase : (pop w r key).2 <;> simp_all [notEmpty]
        rw [hp2, collapse_empty_right]
        exact hsl
    · rw [pop_snd_internal_left (by simpa using hb)]
      by_cases hne : notEmpty (pop w l key).2 = true
      · rw [collapse_of_notEmpty c hne hr, noEmptySub, Bool.and_eq_true,
          Bool.and_eq_true, Bool.and_eq_true]
        exact ⟨⟨⟨hne, hr⟩, ihl hsl⟩, hsr⟩
      · have hp2 : (pop w l key).2 = .Empty := by
          cases hcase : (pop w l key).2 <;> simp_all [notEmpty]
        rw [hp2, collapse_empty_left]
        exact hsr

theorem pop_inv2 {w : Nat} {t : CritBit V} {key : Nat}
    (hi : inv2 w t = true) : inv2 w (pop w t key).2 = true := by
  induction t with
  | Empty => simp [pop, inv2]
  | Leaf k v => by_cases h : k = key <;> simp [pop, h, inv2]
  | Internal l r c ihl ihr =>
    obtain ⟨hal, har, hil, hir⟩ := inv2_internal hi
    by_cases hb : bit_at w key c
    · rw [pop_snd_internal_right hb]
      cases hp2 : (pop w r key).2 with
      | Empty => rw [collapse_empty_right]; exact hil
      | Leaf k2 v2 =>
        rw [← hp2]
        have hne : notEmpty (pop w r key).2 = true := by rw [hp2]; rfl
        cases hcl : notEmpty l
        · have : l = .Empty := by cases l <;> simp_all [notEmpty]
          rw [this, collapse_empty_left]
          exact ihr hir
        · rw [collapse_of_notEmpty c hcl hne, inv2, Bool.and_eq_true,
            Bool.and_eq_true, Bool.and_eq_true]
          refine ⟨⟨⟨?_, ?_⟩, hil⟩, ihr hir⟩
          · rw [List.all_eq_true]
            intro x hx
            simp [hal x hx]
          · rw [List.all_eq_true]
            intro x hx
            simp [har x (pop_leafKeys x hx)]
      | Internal l2 r2 c2 =>
        rw [← hp2]
        have hne : notEmpty (pop w r key).2 = true := by rw [hp2]; rfl
        cases hcl : notEmpty l
        · have : l = .Empty := by cases l <;> simp_all [notEmpty]
          rw [this, collapse_empty_left]
          exact ihr hir
        · rw [collapse_of_notEmpty c hcl hne, inv2, Bool.and_eq_true,
            Bool.and_eq_true, Bool.and_eq_true]
          refine ⟨⟨⟨?_, ?_⟩, hil⟩, ihr hir⟩
          · rw [List.all_eq_true]
            intro x hx
            simp [hal x hx]
          · rw [List.all_eq_true]
            intro x hx
            simp [har x (pop_leafKeys x hx)]
    · rw [pop_snd_internal_left (by simpa using hb)]
      cases hp2 : (pop w l key).2 with
      | Empty => rw [collapse_empty_left]; exact hir
      | Leaf k2 v2 =>
        rw [← hp2]
        have hne : notEmpty (pop w l key).2 = true := by rw [hp2]; rfl
        cases hcr : notEmpty r
        · have : r = .Empty := by cases r <;> simp_all [notEmpty]
          rw [this, collapse_empty_right]
          exact ihl hil
        · rw [collapse_of_notEmpty c hne hcr, inv2, Bool.and_eq_true,
            Bool.and_eq_true, Bool.and_eq_true]
          refine ⟨⟨⟨?_, ?_⟩, ihl hil⟩, hir⟩
          · rw [List.all_eq_true]
            intro x hx
            simp [hal x (pop_leafKeys x hx)]
          · rw [List.all_eq_true]
            intro x hx
            simp [har x hx]
      | Internal l2 r2 c2 =>
        rw [← hp2]
        have hne : notEmpty (pop w l key).2 = true := by rw [hp2]; rfl
        cases hcr : notEmpty r
        · have : r = .Empty := by cases r <;> simp_all [notEmpty]
          rw [this, collapse_empty_right]
          exact ihl hil
        · rw [collapse_of_notEmpty c hne hcr, inv2, Bool.and_eq_true,
            Bool.and_eq_true, Bool.and_eq_true]
          refine ⟨⟨⟨?_, ?_⟩, ihl hil⟩, hir⟩
          · rw [List.all_eq_true]
            intro x hx
            simp [hal x (pop_leafKeys x hx)]
          · rw [List.all_eq_true]
            intro x hx
            simp [har x hx]

theorem pop_keysBelow {w : Nat} {t : CritBit V} {key : Nat}
    (h : keysBelow w t = true) : keysBelow w (pop w t key).2 = true := by
  simp [keysBelow, List.all_eq_true] at h ⊢
  intro x hx
  exact h x (pop_leafKeys x hx)

theorem pop_critsBelow {w : Nat} {t : CritBit V} {key : Nat}
    (hc : critsBelow w t = true) : critsBelow w (pop w t key).2 = true := by
  induction t with
  | Empty => simp [pop, critsBelow]
  | Leaf k v => by_cases h : k = key <;> simp [pop, h, critsBelow]
  | Internal l r c ihl ihr =>
    rw [critsBelow, Bool.and_eq_true, Bool.and_eq_true] at hc
    obtain ⟨⟨hcw, hcl⟩, hcr⟩ := hc
    by_cases hb : bit_at w key c
    · rw [pop_snd_internal_right hb]
      exact collapse_critsBelow hcl (ihr hcr) (of_decide_eq_true hcw)
    · rw [pop_snd_internal_left (by simpa using hb)]
      exact collapse_critsBelow (ihl hcl) hcr (of_decide_eq_true hcw)

theorem reachable_wf {w : Nat} {t : CritBit V} (h : Reachable w t) :
    inv2 w t = true ∧ noEmptySub t = true ∧ keysBelow w t = true ∧
      critsBelow w t = true := by
  induction h with
  | empty => simp [inv2, noEmptySub, keysBelow, leafKeys, critsBelow]
  | swap t key value ht hkey ih =>
    obtain ⟨hi, hs, hk, hc⟩ := ih
    exact ⟨swap_inv2 hk hkey hi, swap_noEmptySub hs, swap_keysBelow hk hkey,
      swap_critsBelow hk hkey hc⟩
  | pop t key ht hkey ih =>
    obtain ⟨hi, hs, hk, hc⟩ := ih
    exact ⟨pop_inv2 hi, pop_noEmptySub hs, pop_keysBelow hk, pop_critsBelow hc⟩
  | clear t ht ih =>
    simp [clear, inv2, noEmptySub, keysBelow, leafKeys, critsBelow]

theorem leafKeys_ne_nil {t : CritBit V} (hne : notEmpty t = true)
    (hs : noEmptySub t = true) : leafKeys t ≠ [] := by
  induction t with
  | Empty => simp [notEmpty] at hne
  | Leaf k v => simp [leafKeys]
  | Internal l r c ihl ihr =>
    obtain ⟨hl, hr, hsl, hsr⟩ := noEmptySub_internal hs
    simp only [leafKeys]
    intro hcontra
    exact ihl hl hsl (List.append_eq_nil.mp hcontra).1

theorem exists_leafKey {t : CritBit V} (hne : notEmpty t = true)
    (hs : noEmptySub t = true) : ∃ x, x ∈ leafKeys t := by
  cases hk : leafKeys t with
  | nil => exact absurd hk (leafKeys_ne_nil hne hs)
  | cons a as => exact ⟨a, by simp [hk]⟩

theorem hasCrit_false_of_bits {w c : Nat} {b : Bool} {t : CritBit V}
    (hall : ∀ x ∈ leafKeys t, bit_at w x c = b)
    (hi : inv2 w t = true) (hs : noEmptySub t = true) :
    hasCrit c t = false := by
  induction t with
  | Empty => rfl
  | Leaf k v => rfl
  | Internal l r c' ihl ihr =>
    obtain ⟨hal, har, hil, hir⟩ := inv2_internal hi
    obtain ⟨hl, hr, hsl, hsr⟩ := noEmptySub_internal hs
    have halll : ∀ x ∈ leafKeys l, bit_at w x c = b := fun x hx =>
      hall x (by simp [leafKeys, hx])
    have hallr : ∀ x ∈ leafKeys r, bit_at w x c = b := fun x hx =>
      hall x (by simp [leafKeys, hx])
    have hcc : (c' == c) = false := by
      rw [beq_eq_false_iff_ne]
      intro he
      subst he
      obtain ⟨xl, hxl⟩ := exists_leafKey hl hsl
      obtain ⟨xr, hxr⟩ := exists_leafKey hr hsr
      have h1 := hal xl hxl
      have h2 := har xr hxr
      have h3 := halll xl hxl
      have h4 := hallr xr hxr
      rw [h1] at h3
      rw [h2] at h4
      rw [← h3] at h4
      exact Bool.false_ne_true h4.symm
    simp [hasCrit, hcc, ihl halll hil hsl, ihr hallr hir hsr]

theorem wf_critsDistinct {w : Nat} {t : CritBit V} (hi : inv2 w t = true)
    (hs : noEmptySub t = true) : critsDistinct t = true := by
  induction t with
  | Empty => rfl
  | Leaf k v => rfl
  | Internal l r c ihl ihr =>
    obtain ⟨hal, har, hil, hir⟩ := inv2_internal hi
    obtain ⟨hl, hr, hsl, hsr⟩ := noEmptySub_internal hs
    have h1 : hasCrit c l = false := hasCrit_false_of_bits hal hil hsl
    have h2 : hasCrit c r = false := hasCrit_false_of_bits har hir hsr
    simp [critsDistinct, h1, h2, ihl hil hsl, ihr hir hsr]

theorem critsBelow_hasCrit {w : Nat} {t : CritBit V}
    (hc : critsBelow w t = true) {c : Nat} (h : hasCrit c t = true) : c < w := by
  induction t with
  | Empty => simp [hasCrit] at h
  | Leaf k v => simp [hasCrit] at h
  | Internal l r c' ihl ihr =>
    rw [critsBelow, Bool.and_eq_true, Bool.and_eq_true] at hc
    obtain ⟨⟨hcw, hcl⟩, hcr⟩ := hc
    rw [hasCrit, Bool.or_eq_true, Bool.or_eq_true] at h
    rcases h with (he | h1) | h2
    · have hcc : c' = c := beq_iff_eq.mp he
      rw [← hcc]
      exact of_decide_eq_true hcw
    · exact ihl hcl h1
    · exact ihr hcr h2

theorem height_le_card {w : Nat} {t : CritBit V} (hi : inv2 w t = true)
    (hs : noEmptySub t = true) :
    ∀ s : Finset Nat, (∀ c, hasCrit c t = true → c ∈ s) →
      height t ≤ s.card := by
  induction t with
  | Empty => intro s _; simp [height]
  | Leaf k v => intro s _; simp [height]
  | Internal l r c ihl ihr =>
    intro s hsub
    obtain ⟨hal, har, hil, hir⟩ := inv2_internal hi
    obtain ⟨hl, hr, hsl, hsr⟩ := noEmptySub_internal hs
    have hc : c ∈ s := hsub c (by simp [hasCrit])
    have h1 : hasCrit c l = false := hasCrit_false_of_bits hal hil hsl
    have h2 : hasCrit c r = false := hasCrit_false_of_bits har hir hsr
    have hsubl : ∀ c', hasCrit c' l = true → c' ∈ s.erase c := by
      intro c' hc'
      rw [Finset.mem_erase]
      refine ⟨?_, hsub c' (by simp [hasCrit, hc'])⟩
      intro he
      rw [he, h1] at hc'
      exact Bool.false_ne_true hc'
    have hsubr : ∀ c', hasCrit c' r = true → c' ∈ s.erase c := by
      intro c' hc'
      rw [Finset.mem_erase]
      refine ⟨?_, hsub c' (by simp [hasCrit, hc'])⟩
      intro he
      rw [he, h2] at hc'
      exact Bool.false_ne_true hc'
    have hlc := ihl hil hsl (s.erase c) hsubl
    have hrc := ihr hir hsr (s.erase c) hsubr
    rw [Finset.card_erase_of_mem hc] at hlc hrc
    have hcard : 1 ≤ s.card := Finset.card_pos.mpr ⟨c, hc⟩
    simp only [height]
    have hm : max (height l) (height r) ≤ s.card - 1 :=
      Nat.max_le.mpr ⟨hlc, hrc⟩
    omega

theorem wf_height_le {w : Nat} {t : CritBit V} (hi : inv2 w t = true)
    (hs : noEmptySub t = true) (hc : critsBelow w t = true) :
    height t ≤ w := by
  have h := height_le_card hi hs (Finset.range w) (fun c hcc =>
    Finset.mem_range.mpr (critsBelow_hasCrit hc hcc))
  simpa using h

theorem len_eq_leafKeys_length (t : CritBit V) :
    len t = (leafKeys t).length := by
  induction t with
  | Empty => rfl
  | Leaf k v => rfl
  | Internal l r c ihl ihr => simp [len, leafKeys, ihl, ihr]

theorem insertAll_len_aux {w : Nat} :
    ∀ (l : List (Nat × V)) (t : CritBit V), keysBelow w t = true →
      (∀ kv ∈ l, kv.1 < 2 ^ w) → (∀ kv ∈ l, find w t kv.1 = none) →
      (l.map Prod.fst).Nodup →
      len (l.foldl (fun t kv => (swap w t kv.1 kv.2).2) t) =
        len t + l.length := by
  intro l
  induction l with
  | nil =>
    intro t _ _ _ _
    simp
  | cons kv l ih =>
    intro t hkb hkeys hfind hnodup
    simp only [List.foldl_cons]
    have hkv : kv.1 < 2 ^ w := hkeys kv (List.mem_cons_self kv l)
    have hf0 : find w t kv.1 = none := hfind kv (List.mem_cons_self kv l)
    have hlen : len (swap w t kv.1 kv.2).2 = len t + 1 := by
      rw [swap_len]
      simp [hf0]
    have hkb' : keysBelow w (swap w t kv.1 kv.2).2 = true :=
      swap_keysBelow hkb hkv
    have hnd : (l.map Prod.fst).Nodup ∧ kv.1 ∉ l.map Prod.fst := by
      rw [List.map_cons, List.nodup_cons] at hnodup
      exact ⟨hnodup.2, hnodup.1⟩
    have hfind' : ∀ kv' ∈ l, find w (swap w t kv.1 kv.2).2 kv'.1 = none := by
      intro kv' hm
      have hne : kv'.1 ≠ kv.1 := by
        intro he
        exact hnd.2 (he ▸ List.mem_map_of_mem Prod.fst hm)
      rw [swap_find_other hkb hkv hne]
      exact hfind kv' (List.mem_cons_of_mem _ hm)
    rw [ih _ hkb' (fun kv' hm => hkeys kv' (List.mem_cons_of_mem _ hm))
      hfind' hnd.1, hlen]
    simp [List.length_cons]
    omega

/-- C1: on a well-formed map, `pop` of a present key `k` returns the stored
value, decreases `len` by exactly one, leaves `find k` absent and
`contains_key k` false, and preserves `find` at every other key. -/
theorem C1_remove_present {w : Nat} {t : CritBit V} {k k' : Nat} {v : V}
    (hi : inv2 w t = true) (hs : noEmptySub t = true)
    (hf : find w t k = some v) (hne : k' ≠ k) :
    (pop w t k).1 = some v ∧
      len (pop w t k).2 + 1 = len t ∧
      find w (pop w t k).2 k = none ∧
      contains_key w (pop w t k).2 k = false ∧
      find w (pop w t k).2 k' = find w t k' := by
  have h1 : (pop w t k).1 = some v := by rw [pop_fst]; exact hf
  have h3 : find w (pop w t k).2 k = none := by
    rw [pop_snd_find hi hs k]
    simp
  refine ⟨h1, pop_len_some hf, h3, ?_, ?_⟩
  · rw [contains_key, h3]
    rfl
  · rw [pop_snd_find hi hs k']
    simp [hne]

/-- Witness for C1 at a concrete two-leaf map with 8-bit keys. -/
theorem C1_remove_present_witness :
    (pop 8 (CritBit.Internal (.Leaf 0 (10:Nat)) (.Leaf 128 20) 0) 0).1 =
        some 10 ∧
      len (pop 8 (CritBit.Internal (.Leaf 0 (10:Nat)) (.Leaf 128 20) 0) 0).2 +
          1 =
        len (CritBit.Internal (.Leaf 0 (10:Nat)) (.Leaf 128 20) 0) ∧
      find 8 (pop 8 (CritBit.Internal (.Leaf 0 (10:Nat)) (.Leaf 128 20) 0) 0).2
          0 = none ∧
      contains_key 8
          (pop 8 (CritBit.Internal (.Leaf 0 (10:Nat)) (.Leaf 128 20) 0) 0).2
          0 = false ∧
      find 8 (pop 8 (CritBit.Internal (.Leaf 0 (10:Nat)) (.Leaf 128 20) 0) 0).2
          128 =
        find 8 (CritBit.Internal (.Leaf 0 (10:Nat)) (.Leaf 128 20) 0) 128 :=
  C1_remove_present (by decide) (by decide) (by decide) (by decide)

/-- C2: `swap` returns the previously stored value (`find` before the
call), afterwards `find` of the key yields the new value, and `len` grows
by one exactly when the key was absent, staying unchanged on overwrite. -/
theorem C2_insert_spec (w : Nat) (t : CritBit V) (key : Nat) (value : V) :
    (swap w t key value).1 = find w t key ∧
      find w (swap w t key value).2 key = some value ∧
      len (swap w t key value).2 =
        len t + (if (find w t key).isSome then 0 else 1) :=
  ⟨swap_fst w t key value, swap_find_self w t key value,
    swap_len w t key value⟩

/-- C3: every tree reachable from the empty map by `swap`/`pop`/`clear`
satisfies the structural invariant: every leaf under a left child has the
node's critical bit clear, every leaf under a right child has it set, and
no `Internal` node has an `Empty` child. -/
theorem C3_reachable_invariant {w : Nat} {t : CritBit V}
    (h : Reachable w t) : inv2 w t = true ∧ noEmptySub t = true :=
  ⟨(reachable_wf h).1, (reachable_wf h).2.1⟩

/-- Witness for C3 at a concrete reachable two-leaf tree. -/
theorem C3_reachable_invariant_witness :
    inv2 8 (swap 8 (swap 8 (.Empty : CritBit Nat) 0 1).2 128 7).2 = true ∧
      noEmptySub (swap 8 (swap 8 (.Empty : CritBit Nat) 0 1).2 128 7).2 =
        true :=
  C3_reachable_invariant
    (Reachable.swap _ 128 7
      (Reachable.swap _ 0 1 Reachable.empty (by decide)) (by decide))

/-- C4: when `swap` splits a leaf, ordering the two leaves by the bit test
`bit_at(&key, &crit)` coincides with numeric comparison: the smaller key
becomes the left child and the larger the right child. -/
theorem C4_split_order {w : Nat} (k key : Nat) (v value : V)
    (hk : k < 2 ^ w) (hkey : key < 2 ^ w) (hne : k ≠ key) :
    swap w (CritBit.Leaf k v) key value =
      (none,
        if k < key then
          CritBit.Internal (.Leaf k v) (.Leaf key value)
            (leadingZeros w (k ^^^ key))
        else
          CritBit.Internal (.Leaf key value) (.Leaf k v)
            (leadingZeros w (k ^^^ key))) := by
  have hb := bit_at_crit_lt_iff hk hkey hne
  by_cases hlt : k < key
  · have hbt : bit_at w key (leadingZeros w (k ^^^ key)) = true := by
      rw [hb]
      simp [hlt]
    simp [swap, hne, hbt, hlt]
  · have hbf : bit_at w key (leadingZeros w (k ^^^ key)) = false := by
      rw [hb]
      simp [hlt]
    simp [swap, hne, hbf, hlt]

/-- Witness for C4 at keys 0 and 128 with 8-bit width. -/
theorem C4_split_order_witness :
    swap 8 (CritBit.Leaf 0 (1:Nat)) 128 7 =
      (none,
        if (0:Nat) < 128 then
          CritBit.Internal (.Leaf 0 1) (.Leaf 128 7)
            (leadingZeros 8 (0 ^^^ 128))
        else
          CritBit.Internal (.Leaf 128 7) (.Leaf 0 1)
            (leadingZeros 8 (0 ^^^ 128))) :=
  C4_split_order 0 128 1 7 (by decide) (by decide) (by decide)

/-- C5 counterexample: inserting 128, 192, 0 into the empty 8-bit map
produces a reachable tree containing an `Internal` node with critical bit
0 strictly below an ancestor with critical bit 1, refuting the claim that
every node branches on a bit strictly greater than all its ancestors. -/
theorem C5_counterexample :
    Reachable 8
        (swap 8 (swap 8 (swap 8 (.Empty : CritBit Nat) 128 0).2 192 0).2
          0 0).2 ∧
      critOrdered
        (swap 8 (swap 8 (swap 8 (.Empty : CritBit Nat) 128 0).2 192 0).2
          0 0).2 = false :=
  ⟨Reachable.swap _ 0 0
      (Reachable.swap _ 192 0
        (Reachable.swap _ 128 0 Reachable.empty (by decide)) (by decide))
      (by decide),
    by decide⟩

/-- C5 amended: reachable trees need not branch on strictly increasing bit
positions with depth, but they never branch twice on the same bit along a
path: no `Internal` node's critical bit recurs anywhere in its subtrees. -/
theorem C5_crits_distinct {w : Nat} {t : CritBit V} (h : Reachable w t) :
    critsDistinct t = true :=
  wf_critsDistinct (reachable_wf h).1 (reachable_wf h).2.1

/-- Witness for the amended C5 at a concrete reachable tree. -/
theorem C5_crits_distinct_witness :
    critsDistinct (swap 8 (swap 8 (.Empty : CritBit Nat) 5 1).2 9 2).2 =
      true :=
  C5_crits_distinct
    (Reachable.swap _ 9 2
      (Reachable.swap _ 5 1 Reachable.empty (by decide)) (by decide))

/-- C6: the height of every reachable tree never exceeds the key bit
width, so every recursive descent visits at most `w` internal nodes. -/
theorem C6_height_bounded {w : Nat} {t : CritBit V} (h : Reachable w t) :
    height t ≤ w := by
  obtain ⟨hi, hs, _, hc⟩ := reachable_wf h
  exact wf_height_le hi hs hc

/-- Witness for C6 at a concrete reachable tree. -/
theorem C6_height_bounded_witness :
    height (swap 8 (swap 8 (.Empty : CritBit Nat) 0 1).2 128 7).2 ≤ 8 :=
  C6_height_bounded
    (Reachable.swap _ 128 7
      (Reachable.swap _ 0 1 Reachable.empty (by decide)) (by decide))

/-- C7: for in-range values and positions, `bit_at` returns the bit at
position `pos` counted with position 0 as the most-significant bit, and
matches the four documented 8-bit examples. -/
theorem C7_bit_at_msb :
    (∀ w value pos : Nat, value < 2 ^ w → pos < w →
        bit_at w value pos = msbIndexedBit w value pos) ∧
      bit_at 8 1 0 = false ∧ bit_at 8 128 0 = true ∧
      bit_at 8 1 7 = true ∧ bit_at 8 128 7 = false := by
  refine ⟨fun w value pos hv hp => ?_, by decide, by decide, by decide,
    by decide⟩
  rw [bit_at_eq_testBit hv hp, msbIndexedBit]

/-- Witness for C7 at value 200, position 3, width 8. -/
theorem C7_bit_at_msb_witness :
    bit_at 8 200 3 = msbIndexedBit 8 200 3 :=
  C7_bit_at_msb.1 8 200 3 (by decide) (by decide)

/-- C8: removing an absent key (including from the empty map) returns
nothing and leaves the whole structure unchanged. -/
theorem C8_remove_absent {w : Nat} {t : CritBit V} {key : Nat}
    (hs : noEmptySub t = true) (hf : find w t key = none) :
    pop w t key = (none, t) :=
  pop_none_id hs hf

/-- Witness for C8 on a one-leaf map and an absent key. -/
theorem C8_remove_absent_witness :
    pop 8 (CritBit.Leaf 0 (5:Nat)) 1 = (none, CritBit.Leaf 0 5) :=
  C8_remove_absent (by decide) (by decide)

/-- C9: `len` counts the leaves reachable from the root, the empty map has
length 0, and inserting any duplicate-free list of in-range keys into the
empty map yields a length equal to the number of keys inserted. -/
theorem C9_len_spec (w : Nat) :
    (∀ t : CritBit V, len t = (leafKeys t).length) ∧
      len (.Empty : CritBit V) = 0 ∧
      ∀ l : List (Nat × V), (∀ kv ∈ l, kv.1 < 2 ^ w) →
        (l.map Prod.fst).Nodup → len (insertAll w l) = l.length := by
  refine ⟨len_eq_leafKeys_length, rfl, fun l hk hn => ?_⟩
  have h := insertAll_len_aux l .Empty (by simp [keysBelow, leafKeys]) hk
    (fun kv _ => by simp [find]) hn
  simpa [insertAll, len] using h

/-- Witness for C9 with two distinct 8-bit keys. -/
theorem C9_len_spec_witness :
    len (insertAll 8 [((0:Nat), (5:Nat)), (128, 7)]) = 2 :=
  (C9_len_spec 8).2.2 [(0, 5), (128, 7)] (by decide) (by decide)

/-- C10: re-inserting the key of an existing leaf makes `swap` evaluate
`bit_at(&key, &crit)` with `crit = leading_zeros(k XOR key)` equal to the
full key width: the shift amounts recorded for `swap` of key 0 into
`Leaf 0 _` over 8-bit keys are exactly `[8]`, and 8 is not strictly less
than the bit width 8, so the shift is out of range. -/
theorem C10_full_width_shift :
    swapShifts 8 (CritBit.Leaf 0 (0:Nat)) 0 = [8] ∧ ¬ (8:Nat) < 8 :=
  ⟨by decide, by decide⟩

end CritBit
